import Mathlib

/-!
Shallow embedding of the `toml_label` attribute code generator
(src/lib.rs of the shanan-macro crate).

The generator's pipeline is: split the raw argument text on commas and
extract a file path, read and parse the mapping file into `(name, id)`
pairs, sort the pairs ascending by id with a stable sort, check that the
attached declaration is an enum, derive a CamelCase identifier from every
key, and emit an enum (ordinary variants plus a trailing `Unknown` variant)
with `WithLabel` conversions. File input and output live outside the
embedding; every other stage is modelled below on explicit data.
Rust `u32` ids are modelled as `Nat`: the generator only compares and
copies ids, so no wrap-around arithmetic occurs.
-/

namespace Shanan

/-- Splits a character list at every occurrence of `sep`, mirroring Rust's
`str::split(sep)`: the result is never empty, adjacent separators produce
empty segments, and the empty input yields one empty segment. -/
def splitOnChar (sep : Char) : List Char → List (List Char)
  | [] => [[]]
  | c :: cs =>
    if c = sep then [] :: splitOnChar sep cs
    else
      match splitOnChar sep cs with
      | [] => [[c]]
      | t :: ts => (c :: t) :: ts

/-- Upper-cases the first character of a token and leaves the rest unchanged:
the body of the closure inside `to_camel_case` (src/lib.rs lines 183-187). -/
def capitalize : List Char → List Char
  | [] => []
  | c :: cs => c.toUpper :: cs

/-- Character-level body of `to_camel_case`: split on the space character,
capitalize every token, and concatenate with no separator. -/
def toCamelCaseL (l : List Char) : List Char :=
  ((splitOnChar ' ' l).map capitalize).flatten

/-- Rust `to_camel_case` (src/lib.rs lines 180-190). -/
def to_camel_case (s : String) : String :=
  String.mk (toCamelCaseL s.data)

/-- Rust `str::trim` restricted to ASCII whitespace: drops leading and
trailing whitespace characters. -/
def trimWs (l : List Char) : List Char :=
  ((l.dropWhile Char.isWhitespace).reverse.dropWhile Char.isWhitespace).reverse

/-- Rust `str::trim_matches(c)`: drops every leading and every trailing
occurrence of `c`. -/
def trimMatchesChar (c : Char) (l : List Char) : List Char :=
  ((l.dropWhile (· = c)).reverse.dropWhile (· = c)).reverse

/-- The path extraction of src/lib.rs line 61:
`file_arg.split('=').nth(1).unwrap().trim().trim_matches('"')`. The `getD`
default is never reached when the argument contains an equals sign, which
the caller has checked (mirroring the `unwrap`). -/
def file_path_of (file_arg : List Char) : List Char :=
  trimMatchesChar '"' (trimWs ((splitOnChar '=' file_arg).getD 1 []))

/-- Argument-parsing stage of `toml_label` (src/lib.rs lines 41-61): split
the raw argument text on commas and require exactly one segment; require the
trimmed segment to start with `file` and to contain an equals sign; then
extract the file path. Returns the path, or the compile-error message. -/
def parse_args (args_str : String) : Except String String :=
  let parts := splitOnChar ',' args_str.data
  if parts.length ≠ 1 then
    Except.error "Expected format: file = \"path\""
  else
    let file_arg := trimWs (parts.headD [])
    if !(("file".data).isPrefixOf (trimWs file_arg)) || !(file_arg.contains '=') then
      Except.error "First argument must be file path"
    else
      Except.ok (String.mk (file_path_of file_arg))

/-- The sort applied to the parsed toml entries (src/lib.rs line 79,
`data.sort_by_key(|(_, id)| *id)`). Rust's `sort_by_key` is a stable sort
ascending by the key, here the id alone; the output of a stable sort is
uniquely determined by sortedness, stability and being a permutation, so it
is modelled by the stable insertion sort on the same comparison. The
theorems `sort_order_determinism` conjuncts establish exactly those three
characterizing properties. -/
def sortPairs (l : List (String × Nat)) : List (String × Nat) :=
  l.insertionSort (fun a b => a.2 ≤ b.2)

/-- A value of the generated enum: one ordinary variant per mapping entry,
identified by its derived identifier, plus the fallback `Unknown` variant
carrying a numeric payload (src/lib.rs lines 143-146). -/
inductive GenLabel where
  | Known (ident : String)
  | Unknown (i : Nat)
deriving DecidableEq, Repr

/-- Generated `from_label_id` (src/lib.rs lines 150-155): one match arm
`id => Enum::Ident` per sorted entry, in order, then a fallback arm
`i => Enum::Unknown(i)`; the first matching arm wins. -/
def from_label_id (ps : List (String × Nat)) (label_id : Nat) : GenLabel :=
  match ps.find? (fun p => p.2 == label_id) with
  | some p => GenLabel.Known (to_camel_case p.1)
  | none => GenLabel.Unknown label_id

/-- Generated `to_label_str` (src/lib.rs lines 156-161): one arm
`Enum::Ident => String::from(name)` per sorted entry, then
`Enum::Unknown(i) => format!("unknown{}", i)`. A `Known` value whose
identifier is not among the declared variants cannot exist in the generated
Rust enum; the `""` default marks that unreachable case. -/
def to_label_str (ps : List (String × Nat)) : GenLabel → String
  | GenLabel.Known ident =>
    match ps.find? (fun p => to_camel_case p.1 == ident) with
    | some p => p.1
    | none => ""
  | GenLabel.Unknown i => "unknown" ++ toString i

/-- Generated `to_label_id` (src/lib.rs lines 162-167): one arm
`Enum::Ident => id` per sorted entry, then `Enum::Unknown(i) => *i`.
The `0` default marks the same unreachable case as in `to_label_str`. -/
def to_label_id (ps : List (String × Nat)) : GenLabel → Nat
  | GenLabel.Known ident =>
    match ps.find? (fun p => to_camel_case p.1 == ident) with
    | some p => p.2
    | none => 0
  | GenLabel.Unknown i => i

/-- Generated constant `LABEL_NUM` (src/lib.rs lines 139 and 149,
`pairs.len() as u32`): the number of ordinary variants as a `u32`, i.e. the
length of the sorted pair list truncated modulo 2^32 by the `as u32` cast. -/
def LABEL_NUM (ps : List (String × Nat)) : Nat :=
  ps.length % 2 ^ 32

/-- The member list of the generated enum (src/lib.rs lines 143-146): the
derived identifier of every sorted entry, then the fallback `Unknown`. -/
def enumMembers (ps : List (String × Nat)) : List String :=
  ps.map (fun p => to_camel_case p.1) ++ ["Unknown"]

/-- Kind of a successfully parsed `DeriveInput`'s data (`syn::Data`), the
scrutinee of the `input_ast.data` match of src/lib.rs lines 96-103: a
`DeriveInput` is exactly a struct, an enum or a union declaration. -/
inductive DataKind where
  | enumData
  | structData
  | unionData
deriving DecidableEq, Repr

/-- Kind of the declaration the attribute is attached to, before parsing:
the three `DeriveInput` forms, plus declarations such as functions that are
not a `DeriveInput` at all. -/
inductive TargetKind where
  | enumDecl
  | structDecl
  | unionDecl
  | fnDecl
  | otherDecl
deriving DecidableEq, Repr

/-- Outcome of the code-generation stage: emitted code, a compile error
diagnostic, or an uncaught panic aborting the expansion. -/
inductive GenResult where
  | emitted (members : List String) (labelNum : Nat)
  | compileError (msg : String)
  | panicked
deriving DecidableEq, Repr

/-- Modelled from the spec: `syn::Ident::new` lives outside this repository
and panics unless its argument is a syntactically valid identifier; §4.4
names leading digits and punctuation as invalid. ASCII identifier syntax:
nonempty, first character a letter or underscore, remaining characters
letters, digits or underscores. -/
def isValidIdent (s : String) : Bool :=
  match s.data with
  | [] => false
  | c :: cs => (c.isAlpha || c = '_') && cs.all (fun d => d.isAlphanum || d = '_')

/-- Modelled from the spec: identifier construction, with `none` standing
for the panic of `Ident::new` on an invalid name (§7,
IdentifierConstructionError). -/
def mkIdent (s : String) : Option String :=
  if isValidIdent s then some s else none

/-- The identifier-construction pass over the sorted entries (src/lib.rs
lines 105-111): derive a CamelCase name from every key and build an
identifier from it; the first invalid name aborts the whole pass. -/
def buildIdents : List (String × Nat) → Option (List String)
  | [] => some []
  | p :: ps =>
    match mkIdent (to_camel_case p.1), buildIdents ps with
    | some ident, some rest => some (ident :: rest)
    | _, _ => none

/-- Modelled from the spec: `parse_macro_input!(input as DeriveInput)`
(src/lib.rs line 92) lives in syn, outside this repository. A `DeriveInput`
parse accepts exactly struct, enum and union declarations; anything else,
such as a function, makes the invocation return syn's parse error as a
compile diagnostic before the enum check is ever reached (message cited
from syn's `DeriveInput` parser). -/
def parseDeriveInput : TargetKind → Except String DataKind
  | TargetKind.enumDecl => Except.ok DataKind.enumData
  | TargetKind.structDecl => Except.ok DataKind.structData
  | TargetKind.unionDecl => Except.ok DataKind.unionData
  | TargetKind.fnDecl => Except.error "expected one of: `struct`, `enum`, `union`"
  | TargetKind.otherDecl => Except.error "expected one of: `struct`, `enum`, `union`"

/-- Post-parse stage of `toml_label` (src/lib.rs lines 96-177), given a
successfully parsed `DeriveInput`: check that it is an enum, emitting the
fixed `compile_error!` otherwise; then construct the identifiers (a panic
aborting everything if a derived name is invalid) and emit the enum members
and `LABEL_NUM`. -/
def generate (data : DataKind) (toml_data : List (String × Nat)) : GenResult :=
  match data with
  | DataKind.enumData =>
    match buildIdents (sortPairs toml_data) with
    | some idents => GenResult.emitted (idents ++ ["Unknown"]) (LABEL_NUM (sortPairs toml_data))
    | none => GenResult.panicked
  | _ => GenResult.compileError "This macro can only be used on enums"

/-- The whole target-handling path of `toml_label` (src/lib.rs lines
92-177): parse the attached declaration as a `DeriveInput`, surfacing the
syn parse error as a compile diagnostic on failure, then run the
post-parse generation stage. -/
def expand (target : TargetKind) (toml_data : List (String × Nat)) : GenResult :=
  match parseDeriveInput target with
  | Except.error e => GenResult.compileError e
  | Except.ok d => generate d toml_data

/-! Helper lemmas shared by the claim theorems. -/

theorem sortPairs_perm (l : List (String × Nat)) : (sortPairs l).Perm l :=
  List.perm_insertionSort _ l

theorem mem_sortPairs {p : String × Nat} {l : List (String × Nat)} :
    p ∈ sortPairs l ↔ p ∈ l :=
  (sortPairs_perm l).mem_iff

theorem buildIdents_eq_none {l : List (String × Nat)} {p : String × Nat}
    (hp : p ∈ l) (hbad : mkIdent (to_camel_case p.1) = none) :
    buildIdents l = none := by
  induction l with
  | nil => cases hp
  | cons q qs ih =>
    rcases List.mem_cons.mp hp with rfl | hmem
    · simp [buildIdents, hbad]
    · simp only [buildIdents, ih hmem]
      cases mkIdent (to_camel_case q.1) <;> rfl

/-- C2: for every id not present in the mapping, the generated
`from_label_id` falls back to `Unknown(id)`; on that value `to_label_str`
returns `"unknown"` followed by the decimal id and `to_label_id` returns
the id itself. -/
theorem unknown_fallback (l : List (String × Nat)) (i : Nat)
    (h : ∀ p ∈ l, p.2 ≠ i) :
    from_label_id (sortPairs l) i = GenLabel.Unknown i ∧
    to_label_str (sortPairs l) (GenLabel.Unknown i) = "unknown" ++ toString i ∧
    to_label_id (sortPairs l) (GenLabel.Unknown i) = i := by
  have hnone : (sortPairs l).find? (fun p => p.2 == i) = none := by
    rw [List.find?_eq_none]
    intro x hx
    simpa using h x (mem_sortPairs.mp hx)
  exact ⟨by simp [from_label_id, hnone], rfl, rfl⟩

/-- C2 witness: id 5 is absent from the mapping `cat = 0, dog = 1`. -/
theorem unknown_fallback_witness :
    from_label_id (sortPairs [("cat", 0), ("dog", 1)]) 5 = GenLabel.Unknown 5 ∧
    to_label_str (sortPairs [("cat", 0), ("dog", 1)]) (GenLabel.Unknown 5) = "unknown5" ∧
    to_label_id (sortPairs [("cat", 0), ("dog", 1)]) (GenLabel.Unknown 5) = 5 :=
  unknown_fallback [("cat", 0), ("dog", 1)] 5 (by decide)

/-- C1: for every id present in the mapping, the generated conversion
round-trips: `from_label_id id` is the variant of the entry carrying that
id, its `to_label_id` is the id again, and its `to_label_str` is the raw
mapping key of that id. The toml table guarantees distinct keys; distinct
ids and distinct derived identifiers are assumed because duplicate ids or
colliding identifiers make the generated match arms or variant names
ambiguous (colliding variant names do not even compile). -/
theorem from_label_id_roundtrip (l : List (String × Nat)) (n : String) (i : Nat)
    (hids : (l.map Prod.snd).Nodup)
    (hidents : (l.map (fun p => to_camel_case p.1)).Nodup)
    (hmem : (n, i) ∈ l) :
    from_label_id (sortPairs l) i = GenLabel.Known (to_camel_case n) ∧
    to_label_id (sortPairs l) (from_label_id (sortPairs l) i) = i ∧
    to_label_str (sortPairs l) (from_label_id (sortPairs l) i) = n := by
  have hS := sortPairs_perm l
  have hmemS : (n, i) ∈ sortPairs l := mem_sortPairs.mpr hmem
  have hidsS : ((sortPairs l).map Prod.snd).Nodup :=
    ((hS.map Prod.snd).nodup_iff).mpr hids
  have hidentsS : ((sortPairs l).map (fun p => to_camel_case p.1)).Nodup :=
    ((hS.map (fun p => to_camel_case p.1)).nodup_iff).mpr hidents
  have hsome1 : ((sortPairs l).find? (fun p => p.2 == i)).isSome :=
    List.find?_isSome.mpr ⟨(n, i), hmemS, by simp⟩
  obtain ⟨q, hq⟩ := Option.isSome_iff_exists.mp hsome1
  have hq2 : q.2 = i := by simpa using List.find?_some hq
  have hqn : q = (n, i) :=
    List.inj_on_of_nodup_map hidsS (List.mem_of_find?_eq_some hq) hmemS hq2
  have hfrom : from_label_id (sortPairs l) i = GenLabel.Known (to_camel_case n) := by
    rw [from_label_id, hq, hqn]
  have hsome2 : ((sortPairs l).find? (fun p => to_camel_case p.1 == to_camel_case n)).isSome :=
    List.find?_isSome.mpr ⟨(n, i), hmemS, by simp⟩
  obtain ⟨r, hr⟩ := Option.isSome_iff_exists.mp hsome2
  have hr1 : to_camel_case r.1 = to_camel_case n := by
    simpa using List.find?_some hr
  have hrn : r = (n, i) :=
    List.inj_on_of_nodup_map hidentsS (List.mem_of_find?_eq_some hr) hmemS hr1
  refine ⟨hfrom, ?_, ?_⟩
  · rw [hfrom, to_label_id, hr, hrn]
  · rw [hfrom, to_label_str, hr, hrn]

/-- C1 witness: the mapping `cat = 0, dog = 1` at id 1. -/
theorem from_label_id_roundtrip_witness :
    from_label_id (sortPairs [("cat", 0), ("dog", 1)]) 1 = GenLabel.Known "Dog" ∧
    to_label_id (sortPairs [("cat", 0), ("dog", 1)])
      (from_label_id (sortPairs [("cat", 0), ("dog", 1)]) 1) = 1 ∧
    to_label_str (sortPairs [("cat", 0), ("dog", 1)])
      (from_label_id (sortPairs [("cat", 0), ("dog", 1)]) 1) = "dog" := by
  have h := from_label_id_roundtrip [("cat", 0), ("dog", 1)] "dog" 1
    (by decide) (by decide) (by decide)
  exact ⟨by rw [h.1] ; rfl, h.2.1, h.2.2⟩

/-- C3: for a mapping of N entries (the toml table has one entry per unique
key), with N below 2^32 so that the `as u32` cast of the entry count does
not wrap, the generated `LABEL_NUM` is N and the generated enum has exactly
N ordinary members followed by the single `Unknown` member; the empty
mapping yields `LABEL_NUM = 0` and an enum containing only the fallback
member. -/
theorem label_num_count (l : List (String × Nat)) (hlen : l.length < 2 ^ 32) :
    LABEL_NUM (sortPairs l) = l.length ∧
    enumMembers (sortPairs l) =
      (sortPairs l).map (fun p => to_camel_case p.1) ++ ["Unknown"] ∧
    (enumMembers (sortPairs l)).length = l.length + 1 ∧
    LABEL_NUM (sortPairs ([] : List (String × Nat))) = 0 ∧
    enumMembers (sortPairs ([] : List (String × Nat))) = ["Unknown"] := by
  refine ⟨?_, rfl, ?_, rfl, rfl⟩
  · rw [LABEL_NUM, (sortPairs_perm l).length_eq, Nat.mod_eq_of_lt hlen]
  · simp [enumMembers, (sortPairs_perm l).length_eq]

/-- C3 witness: the one-entry mapping `cat = 0`. -/
theorem label_num_count_witness :
    (1 : Nat) < 2 ^ 32 ∧ LABEL_NUM (sortPairs [("cat", 0)]) = 1 :=
  ⟨by norm_num, (label_num_count [("cat", 0)] (by norm_num)).1⟩

theorem charOfNat_toNat {n : Nat} (h1 : 97 ≤ n) (h2 : n ≤ 122) :
    (Char.ofNat (n - 32)).toNat = n - 32 := by
  interval_cases n <;> decide

theorem toUpper_of_not_lower {c : Char} (h : ¬(97 ≤ c.toNat ∧ c.toNat ≤ 122)) :
    c.toUpper = c := by
  show (if c.toNat ≥ 97 ∧ c.toNat ≤ 122 then Char.ofNat (c.toNat - 32) else c) = c
  exact if_neg h

theorem toUpper_of_lower {c : Char} (h1 : 97 ≤ c.toNat) (h2 : c.toNat ≤ 122) :
    c.toUpper = Char.ofNat (c.toNat - 32) := by
  show (if c.toNat ≥ 97 ∧ c.toNat ≤ 122 then Char.ofNat (c.toNat - 32) else c) = _
  exact if_pos ⟨h1, h2⟩

theorem toUpper_toUpper (c : Char) : c.toUpper.toUpper = c.toUpper := by
  by_cases h : 97 ≤ c.toNat ∧ c.toNat ≤ 122
  · have ht : (c.toUpper).toNat = c.toNat - 32 := by
      rw [toUpper_of_lower h.1 h.2, charOfNat_toNat h.1 h.2]
    refine toUpper_of_not_lower ?_
    rw [ht]
    omega
  · rw [toUpper_of_not_lower h, toUpper_of_not_lower h]

theorem toUpper_ne_space {c : Char} (h : c ≠ ' ') : c.toUpper ≠ ' ' := by
  by_cases hr : 97 ≤ c.toNat ∧ c.toNat ≤ 122
  · intro he
    have ht : (c.toUpper).toNat = c.toNat - 32 := by
      rw [toUpper_of_lower hr.1 hr.2, charOfNat_toNat hr.1 hr.2]
    rw [he] at ht
    have : (' ' : Char).toNat = 32 := rfl
    omega
  · rw [toUpper_of_not_lower hr]
    exact h

theorem splitOnChar_ne_nil (sep : Char) (l : List Char) : splitOnChar sep l ≠ [] := by
  cases l with
  | nil => simp [splitOnChar]
  | cons c cs =>
    rw [splitOnChar]
    split
    · simp
    · split <;> simp

theorem headD_splitOnChar (sep : Char) (l : List Char) :
    (splitOnChar sep l).headD [] = l.takeWhile (fun c => c != sep) := by
  induction l with
  | nil => rfl
  | cons c cs ih =>
    rw [splitOnChar]
    by_cases hc : c = sep
    · simp [hc]
    · obtain ⟨t, ts, hts⟩ := List.exists_cons_of_ne_nil (splitOnChar_ne_nil sep cs)
      rw [if_neg hc, hts]
      rw [hts] at ih
      simp only [List.headD_cons] at ih
      simp [List.takeWhile_cons, hc, ih]

theorem getD_one_splitOnChar (sep : Char) (l : List Char) (h : sep ∈ l) :
    (splitOnChar sep l).getD 1 [] =
      ((l.dropWhile (fun c => c != sep)).tail).takeWhile (fun c => c != sep) := by
  induction l with
  | nil => cases h
  | cons c cs ih =>
    rw [splitOnChar]
    by_cases hc : c = sep
    · subst hc
      rw [if_pos rfl, List.getD_cons_succ]
      obtain ⟨t, ts, hts⟩ := List.exists_cons_of_ne_nil (splitOnChar_ne_nil c cs)
      have hh := headD_splitOnChar c cs
      rw [hts] at hh
      simp only [List.headD_cons] at hh
      rw [hts, List.getD_cons_zero, hh]
      simp [List.dropWhile_cons]
    · have hcs : sep ∈ cs := by
        rcases List.mem_cons.mp h with h' | h'
        · exact absurd h'.symm hc
        · exact h'
      obtain ⟨t, ts, hts⟩ := List.exists_cons_of_ne_nil (splitOnChar_ne_nil sep cs)
      have ih' := ih hcs
      rw [hts, List.getD_cons_succ] at ih'
      rw [if_neg hc, hts]
      dsimp only
      rw [List.getD_cons_succ, ih']
      simp [List.dropWhile_cons, hc]

theorem splitOnChar_append (sep : Char) (a b : List Char) :
    splitOnChar sep (a ++ sep :: b) = splitOnChar sep a ++ splitOnChar sep b := by
  induction a with
  | nil => simp [splitOnChar]
  | cons c cs ih =>
    by_cases hc : c = sep
    · rw [List.cons_append, splitOnChar, if_pos hc, ih, splitOnChar, if_pos hc]
      rfl
    · obtain ⟨t, ts, hts⟩ := List.exists_cons_of_ne_nil (splitOnChar_ne_nil sep cs)
      rw [List.cons_append, splitOnChar, if_neg hc, ih, hts, splitOnChar, if_neg hc, hts]
      rfl

theorem splitOnChar_of_not_mem {sep : Char} {l : List Char} (h : sep ∉ l) :
    splitOnChar sep l = [l] := by
  induction l with
  | nil => rfl
  | cons c cs ih =>
    have hc : ¬c = sep := fun he => h (he ▸ List.mem_cons_self c cs)
    have hcs : sep ∉ cs := fun hm => h (List.mem_cons_of_mem c hm)
    rw [splitOnChar, if_neg hc, ih hcs]

theorem mem_splitOnChar {sep : Char} {t l : List Char}
    (h : t ∈ splitOnChar sep l) : sep ∉ t := by
  induction l generalizing t with
  | nil =>
    simp only [splitOnChar, List.mem_singleton] at h
    simp [h]
  | cons c cs ih =>
    rw [splitOnChar] at h
    by_cases hc : c = sep
    · rw [if_pos hc] at h
      rcases List.mem_cons.mp h with rfl | h'
      · simp
      · exact ih h'
    · obtain ⟨u, us, hus⟩ := List.exists_cons_of_ne_nil (splitOnChar_ne_nil sep cs)
      rw [if_neg hc, hus] at h
      rcases List.mem_cons.mp h with rfl | h'
      · have hu : sep ∉ u := ih (hus ▸ List.mem_cons_self u us)
        intro hm
        rcases List.mem_cons.mp hm with he | hm'
        · exact hc he.symm
        · exact hu hm'
      · exact ih (hus ▸ List.mem_cons_of_mem u h')

theorem space_not_mem_toCamelCaseL (l : List Char) : ' ' ∉ toCamelCaseL l := by
  intro hm
  rw [toCamelCaseL] at hm
  obtain ⟨x, hx, hmx⟩ := List.mem_flatten.mp hm
  obtain ⟨t, ht, rfl⟩ := List.mem_map.mp hx
  have hsep : ' ' ∉ t := mem_splitOnChar ht
  cases t with
  | nil => cases hmx
  | cons c cs =>
    rcases List.mem_cons.mp hmx with he | hm'
    · exact toUpper_ne_space (fun h => hsep (h ▸ List.mem_cons_self c cs)) he.symm
    · exact hsep (List.mem_cons_of_mem c hm')

theorem capitalize_flatten (ts : List (List Char)) :
    capitalize ((ts.map capitalize).flatten) = (ts.map capitalize).flatten := by
  induction ts with
  | nil => rfl
  | cons t rest ih =>
    cases t with
    | nil => simpa [capitalize] using ih
    | cons c cs =>
      simp only [List.map_cons, List.flatten_cons, capitalize, List.cons_append]
      rw [toUpper_toUpper]

/-- C4: the derived identifier splits the key on single space characters
(so the derivation distributes over a space between any two strings),
upper-cases only the first character of a space-free token leaving the rest
unchanged, maps empty tokens to nothing, and sends "big dog" to "BigDog". -/
theorem to_camel_case_spec :
    (∀ a b : String, to_camel_case (a ++ " " ++ b) = to_camel_case a ++ to_camel_case b) ∧
    (∀ w : String, ' ' ∉ w.data → to_camel_case w = String.mk (capitalize w.data)) ∧
    to_camel_case "" = "" ∧
    to_camel_case "big dog" = "BigDog" := by
  refine ⟨?_, ?_, rfl, by decide⟩
  · intro a b
    apply String.ext
    show toCamelCaseL (a ++ " " ++ b).data = (to_camel_case a ++ to_camel_case b).data
    rw [show (a ++ " " ++ b).data = a.data ++ ' ' :: b.data by simp,
      String.data_append]
    rw [toCamelCaseL, splitOnChar_append, List.map_append, List.flatten_append]
    rfl
  · intro w h
    apply String.ext
    show toCamelCaseL w.data = capitalize w.data
    rw [toCamelCaseL, splitOnChar_of_not_mem h]
    simp

/-- C4 witness: the split law at "big" and "dog", and the capitalization of
the space-free token "dog". -/
theorem to_camel_case_spec_witness :
    to_camel_case ("big" ++ " " ++ "dog") = to_camel_case "big" ++ to_camel_case "dog" ∧
    to_camel_case "dog" = String.mk (capitalize ("dog" : String).data) :=
  ⟨to_camel_case_spec.1 "big" "dog", to_camel_case_spec.2.1 "dog" (by decide)⟩

/-- C10: the identifier derivation is idempotent: applying `to_camel_case`
to one of its own outputs changes nothing, because outputs contain no space
and already start with an upper-cased character. -/
theorem to_camel_case_idempotent (s : String) :
    to_camel_case (to_camel_case s) = to_camel_case s := by
  have key : toCamelCaseL (toCamelCaseL s.data) = toCamelCaseL s.data := by
    conv_lhs => rw [toCamelCaseL]
    rw [splitOnChar_of_not_mem (space_not_mem_toCamelCaseL s.data)]
    simp only [List.map_cons, List.map_nil, List.flatten_cons, List.flatten_nil,
      List.append_nil]
    exact capitalize_flatten (splitOnChar ' ' s.data)
  exact congrArg String.mk key

theorem filter_orderedInsert (x : String × Nat) (l : List (String × Nat)) (i : Nat) :
    (List.orderedInsert (fun a b => a.2 ≤ b.2) x l).filter (fun p => p.2 == i) =
      ((x :: l).filter (fun p => p.2 == i)) := by
  induction l with
  | nil => rfl
  | cons q qs ih =>
    show (if x.2 ≤ q.2 then x :: q :: qs
        else q :: List.orderedInsert (fun a b => a.2 ≤ b.2) x qs).filter (fun p => p.2 == i) = _
    by_cases hle : x.2 ≤ q.2
    · rw [if_pos hle]
    · rw [if_neg hle]
      by_cases hq : q.2 = i
      · by_cases hx : x.2 = i
        · exact absurd (by omega) hle
        · simp [List.filter_cons, hq, hx, ih]
      · by_cases hx : x.2 = i
        · simp [List.filter_cons, hq, hx, ih]
        · simp [List.filter_cons, hq, hx, ih]

theorem filter_sortPairs (l : List (String × Nat)) (i : Nat) :
    (sortPairs l).filter (fun p => p.2 == i) = l.filter (fun p => p.2 == i) := by
  induction l with
  | nil => rfl
  | cons x xs ih =>
    show (List.orderedInsert (fun a b => a.2 ≤ b.2) x
        (List.insertionSort (fun a b => a.2 ≤ b.2) xs)).filter (fun p => p.2 == i) = _
    rw [filter_orderedInsert, List.filter_cons, List.filter_cons,
      show (List.insertionSort (fun a b => a.2 ≤ b.2) xs).filter (fun p => p.2 == i) =
        xs.filter (fun p => p.2 == i) from ih]

theorem find?_first_index {α : Type} (p : α → Bool) {l : List α} {a : α}
    (h : l.find? p = some a) :
    ∃ k : Nat, l[k]? = some a ∧
      ∀ j : Nat, j < k → ∀ q : α, l[j]? = some q → p q = false := by
  induction l with
  | nil => cases h
  | cons c cs ih =>
    by_cases hc : p c = true
    · rw [List.find?_cons_of_pos _ hc] at h
      obtain rfl : c = a := by injection h
      refine ⟨0, by simp, ?_⟩
      intro j hj
      omega
    · rw [List.find?_cons_of_neg _ (by simpa using hc)] at h
      obtain ⟨k, hk, hmin⟩ := ih h
      refine ⟨k + 1, by simpa using hk, ?_⟩
      intro j hj q hq
      cases j with
      | zero =>
        simp only [List.getElem?_cons_zero, Option.some.injEq] at hq
        subst hq
        simpa using hc
      | succ j =>
        exact hmin j (by omega) q (by simpa using hq)

/-- C5: the emitted order is ascending by id whatever the on-disk order:
the sorted list is an ascending permutation of the loaded entries, sorting
is stable (entries of any fixed id keep their prior relative order), any two
loadings that permute each other with distinct ids sort identically, and a
duplicated id resolves through `from_label_id` to the arm of least index in
that ascending order. -/
theorem sort_order_determinism (l₁ l₂ : List (String × Nat)) :
    (sortPairs l₁).Pairwise (fun a b => a.2 ≤ b.2) ∧
    (sortPairs l₁).Perm l₁ ∧
    (∀ i : Nat, (sortPairs l₁).filter (fun p => p.2 == i) = l₁.filter (fun p => p.2 == i)) ∧
    (l₁.Perm l₂ → (l₁.map Prod.snd).Nodup → sortPairs l₁ = sortPairs l₂) ∧
    (∀ i : Nat, (∃ p ∈ l₁, p.2 = i) →
      ∃ k : Nat, ∃ p : String × Nat, (sortPairs l₁)[k]? = some p ∧ p.2 = i ∧
        (∀ j : Nat, j < k → ∀ q : String × Nat, (sortPairs l₁)[j]? = some q → q.2 ≠ i) ∧
        from_label_id (sortPairs l₁) i = GenLabel.Known (to_camel_case p.1)) := by
  letI : IsTotal (String × Nat) (fun a b => a.2 ≤ b.2) := ⟨fun a b => Nat.le_total a.2 b.2⟩
  letI : IsTrans (String × Nat) (fun a b => a.2 ≤ b.2) := ⟨fun _ _ _ h1 h2 => Nat.le_trans h1 h2⟩
  have hsorted : ∀ l : List (String × Nat),
      (sortPairs l).Pairwise (fun a b => a.2 ≤ b.2) := fun l =>
    List.sorted_insertionSort _ l
  have hstrict : ∀ l : List (String × Nat), (l.map Prod.snd).Nodup →
      (sortPairs l).Pairwise (fun a b => a.2 < b.2) := by
    intro l hnd
    have hndS : ((sortPairs l).map Prod.snd).Nodup :=
      ((sortPairs_perm l).map Prod.snd).nodup_iff.mpr hnd
    have hne : (sortPairs l).Pairwise (fun a b => a.2 ≠ b.2) := List.pairwise_map.mp hndS
    exact ((hsorted l).and hne).imp (fun h => Nat.lt_of_le_of_ne h.1 h.2)
  refine ⟨hsorted l₁, sortPairs_perm l₁, filter_sortPairs l₁, ?_, ?_⟩
  · intro hperm hnd
    haveI : IsAntisymm (String × Nat) (fun a b => a.2 < b.2) :=
      ⟨fun _ _ h1 h2 => absurd h1 (by omega)⟩
    have hnd₂ : (l₂.map Prod.snd).Nodup := ((hperm.map Prod.snd).nodup_iff).mp hnd
    exact List.eq_of_perm_of_sorted
      ((sortPairs_perm l₁).trans (hperm.trans (sortPairs_perm l₂).symm))
      (hstrict l₁ hnd) (hstrict l₂ hnd₂)
  · intro i hex
    obtain ⟨p0, hp0, hp0i⟩ := hex
    have hsome : ((sortPairs l₁).find? (fun p => p.2 == i)).isSome :=
      List.find?_isSome.mpr ⟨p0, mem_sortPairs.mpr hp0, by simp [hp0i]⟩
    obtain ⟨q, hq⟩ := Option.isSome_iff_exists.mp hsome
    have hq2 : q.2 = i := by simpa using List.find?_some hq
    obtain ⟨k, hk, hmin⟩ := find?_first_index _ hq
    refine ⟨k, q, hk, hq2, ?_, by rw [from_label_id, hq]⟩
    intro j hj r hr
    have := hmin j hj r hr
    simpa using this

/-- C5 witness: the two on-disk orders of the mapping `a = 1, b = 2` sort to
the same list. -/
theorem sort_order_determinism_witness :
    sortPairs [("b", 2), ("a", 1)] = sortPairs [("a", 1), ("b", 2)] :=
  (sort_order_determinism [("b", 2), ("a", 1)] [("a", 1), ("b", 2)]).2.2.2.1
    (List.Perm.swap ("a", 1) ("b", 2) []) (by decide)

/-- C6 counterexample: for the well-formed argument `file = "a=b"` the claim
predicts the extracted path "a=b" (everything after the first equals sign),
but the code extracts only "a", the text between the first and the second
equals sign. -/
theorem path_extraction_counterexample :
    parse_args "file = \"a=b\"" = Except.ok "a" ∧
    parse_args "file = \"a=b\"" ≠ Except.ok "a=b" := by
  refine ⟨rfl, fun h => ?_⟩
  rw [show parse_args "file = \"a=b\"" = Except.ok "a" from rfl] at h
  exact absurd (Except.ok.inj h) (by decide)

/-- C6 amended: for a segment containing an equals sign, the extracted path
is the text strictly between the first equals sign and the following one
(to the end when there is no second one), with surrounding whitespace
trimmed and then every leading and trailing double-quote character
removed. -/
theorem path_extraction_amended (l : List Char) (h : '=' ∈ l) :
    file_path_of l =
      trimMatchesChar '"'
        (trimWs (((l.dropWhile (fun c => c != '=')).tail).takeWhile (fun c => c != '='))) := by
  rw [file_path_of, getD_one_splitOnChar _ _ h]

/-- C6 amended witness: the argument segment `file = "a=b"`. -/
theorem path_extraction_amended_witness :
    file_path_of ("file = \"a=b\"" : String).data =
      trimMatchesChar '"'
        (trimWs (((("file = \"a=b\"" : String).data.dropWhile (fun c => c != '=')).tail).takeWhile
          (fun c => c != '='))) :=
  path_extraction_amended ("file = \"a=b\"" : String).data (by decide)

/-- C7 counterexample: the key of the single argument segment is `filezz`,
not the literal `file`, yet the invocation is accepted and the path is
extracted, because the code only checks `starts_with("file")`. -/
theorem arg_key_counterexample :
    parse_args "filezz = \"x.toml\"" = Except.ok "x.toml" := rfl

/-- C7 amended: every accepted invocation has a single segment whose
trimmed text merely starts with the four characters `file` (so keys such as
`filezz` are also accepted), and the wrong-key diagnostic is the fixed
message "First argument must be file path" rather than one citing the
`file = "path"` template. -/
theorem arg_key_amended :
    (∀ s path : String, parse_args s = Except.ok path →
      ("file".data).isPrefixOf (trimWs (trimWs ((splitOnChar ',' s.data).headD []))) = true) ∧
    parse_args "path = \"x.toml\"" = Except.error "First argument must be file path" := by
  refine ⟨?_, rfl⟩
  intro s path h
  simp only [parse_args] at h
  split_ifs at h with h1 h2
  all_goals
    first
      | exact Except.noConfusion h
      | · simp only [Bool.or_eq_true, Bool.not_eq_true', not_or, Bool.not_eq_false] at h2
          exact h2.1

/-- C7 amended witness: the accepted invocation `file = "x.toml"` indeed has
a trimmed single segment starting with `file`. -/
theorem arg_key_amended_witness :
    ("file".data).isPrefixOf
      (trimWs (trimWs ((splitOnChar ',' ("file = \"x.toml\"" : String).data).headD []))) = true :=
  arg_key_amended.1 "file = \"x.toml\"" "x.toml" rfl

/-- C8 counterexample: a function target never reaches the enum check; it
fails while parsing the `DeriveInput`, with syn's parse error instead of
the fixed message the claim asserts for every non-enum target. -/
theorem non_enum_counterexample :
    expand TargetKind.fnDecl [] ≠
      GenResult.compileError "This macro can only be used on enums" ∧
    expand TargetKind.fnDecl [] =
      GenResult.compileError "expected one of: `struct`, `enum`, `union`" :=
  ⟨by decide, rfl⟩

/-- C8 amended: no non-enum target ever receives generated code; a target
that parses as a `DeriveInput` but is not an enum (a struct or a union)
produces exactly the plain compile failure "This macro can only be used on
enums", while a target that is not a `DeriveInput` at all (a function, or
anything else) fails earlier with syn's parse error. -/
theorem non_enum_error (t : TargetKind) (m : List (String × Nat))
    (ht : t ≠ TargetKind.enumDecl) :
    (∀ (members : List String) (labelNum : Nat),
      expand t m ≠ GenResult.emitted members labelNum) ∧
    ((t = TargetKind.structDecl ∨ t = TargetKind.unionDecl) →
      expand t m = GenResult.compileError "This macro can only be used on enums") ∧
    ((t = TargetKind.fnDecl ∨ t = TargetKind.otherDecl) →
      expand t m = GenResult.compileError "expected one of: `struct`, `enum`, `union`") := by
  cases t with
  | enumDecl => exact absurd rfl ht
  | structDecl =>
    exact ⟨fun _ _ h => GenResult.noConfusion h, fun _ => rfl,
      fun h => by rcases h with h | h <;> exact TargetKind.noConfusion h⟩
  | unionDecl =>
    exact ⟨fun _ _ h => GenResult.noConfusion h, fun _ => rfl,
      fun h => by rcases h with h | h <;> exact TargetKind.noConfusion h⟩
  | fnDecl =>
    exact ⟨fun _ _ h => GenResult.noConfusion h,
      fun h => by rcases h with h | h <;> exact TargetKind.noConfusion h, fun _ => rfl⟩
  | otherDecl =>
    exact ⟨fun _ _ h => GenResult.noConfusion h,
      fun h => by rcases h with h | h <;> exact TargetKind.noConfusion h, fun _ => rfl⟩

/-- C8 amended witness: a struct target gets the fixed message and a
function target gets the syn parse error. -/
theorem non_enum_error_witness :
    expand TargetKind.structDecl [("cat", 0)] =
      GenResult.compileError "This macro can only be used on enums" ∧
    expand TargetKind.fnDecl [("cat", 0)] =
      GenResult.compileError "expected one of: `struct`, `enum`, `union`" :=
  ⟨(non_enum_error TargetKind.structDecl [("cat", 0)] (by decide)).2.1 (Or.inl rfl),
    (non_enum_error TargetKind.fnDecl [("cat", 0)] (by decide)).2.2 (Or.inl rfl)⟩

/-- C9: a mapping key whose derived CamelCase name is not a valid identifier
aborts generation through the uncaught identifier-construction panic, not
through the structured compile-diagnostic path. -/
theorem invalid_ident_aborts (m : List (String × Nat)) (n : String) (i : Nat)
    (hmem : (n, i) ∈ m) (hbad : isValidIdent (to_camel_case n) = false) :
    generate DataKind.enumData m = GenResult.panicked ∧
    ∀ msg : String, generate DataKind.enumData m ≠ GenResult.compileError msg := by
  have hnone : mkIdent (to_camel_case n) = none := by
    simp [mkIdent, hbad]
  have hb : buildIdents (sortPairs m) = none :=
    buildIdents_eq_none (p := (n, i)) (mem_sortPairs.mpr hmem) hnone
  refine ⟨by simp [generate, hb], ?_⟩
  intro msg h
  rw [generate, hb] at h
  cases h

/-- C9 witness: the key "1cat" derives the identifier "1cat", which starts
with a digit and is not a valid identifier. -/
theorem invalid_ident_aborts_witness :
    generate DataKind.enumData [("1cat", 0)] = GenResult.panicked :=
  (invalid_ident_aborts [("1cat", 0)] "1cat" 0 (by decide) (by decide)).1

end Shanan
